/-
Verification of the TripleHorseDeer / Brainfuck interpreter (src/THD.py).

The development shallowly embeds the three components of the interpreter:
  * the structural validator (`Brainfuck.__init__`): bracket counting,
    stripping of non-operator characters, and the jump-table scan;
  * the execution engine (`Brainfuck.run`): the while loop over the
    operator sequence, with numpy-uint8 cell arithmetic, numpy indexing
    (negative indices address the tape from its end), the instruction
    budget, the output buffer and the final UTF-8 decoding flush;
  * the token translator (`TripleHorseDeer._r2b` / `_b2r`).

Machine integers are modelled as `Nat` with explicit `% 256`; the data
pointer is an `Int` as in Python.  Fallible steps return explicit error
values.  Streams are lists: the input stream is the list of code points
still unread, the output sink is the list of code points of the string
written at the end of the run.
-/
import Mathlib

set_option maxRecDepth 4000

deriving instance DecidableEq for Except

namespace THD

/-! ## Error kinds

`BrainfuckError` numbers in the source: 1 = unmatched number of brackets,
2 = maximum number of instructions exceeded, 4 = unmatched bracket at a
position.  `indexError` models the numpy `IndexError` escaping `run` when
the data pointer leaves even the negative-index range; `keyError` models a
`KeyError` on the jump dict (unreachable after a successful `__init__`);
`decodeError` models `UnicodeDecodeError` from `str(buf_out, 'UTF-8')`;
`noFuel` is an artifact of the fuel-based embedding of the while loop. -/
inductive BFErr where
  | unmatchedCount
  | budget
  | unmatchedBracket (p : Nat)
  | indexError
  | keyError
  | decodeError
  | noFuel
deriving DecidableEq

/-- `Brainfuck.operators` (THD.py line 40). -/
def operators : List Char := ['+', '-', '>', '<', '[', ']', '.', ',']

/-- Exchange the two bracket characters, leave everything else unchanged.
Scanning backwards for a matching bracket (THD.py lines 95-106) is the
forward scan on the reversed prefix with the bracket roles exchanged. -/
def swapBr (c : Char) : Char :=
  if c = '[' then ']' else if c = ']' then '[' else c

/-- The forward bracket scan of `Brainfuck.__init__` (THD.py lines 80-91):
starting with nesting counter `heap`, return the offset of the first `]`
met at counter zero; `[` raises the counter, a `]` at a positive counter
lowers it.  `none` when the scan falls off the end of the list. -/
def fmatch : List Char → Nat → Option Nat
  | [], _ => none
  | c :: rest, heap =>
    if c = ']' then
      if heap = 0 then some 0 else (fmatch rest (heap - 1)).map (· + 1)
    else if c = '[' then
      (fmatch rest (heap + 1)).map (· + 1)
    else
      (fmatch rest heap).map (· + 1)

/-- The partner position the scans of `Brainfuck.__init__` find for the
bracket at position `p`: a forward scan over `code[p+1:]` for `[`
(THD.py lines 80-94), a backward scan over `code[:p]` for `]`
(lines 95-109), embedded as the forward scan of the reversed prefix with
the bracket roles exchanged. -/
def jumpAt (code : List Char) (p : Nat) : Option Nat :=
  if code[p]? = some '[' then
    (fmatch (code.drop (p + 1)) 0).map (fun r => p + 1 + r)
  else if code[p]? = some ']' then
    (fmatch (((code.take p).reverse).map swapBr) 0).map (fun r => p - 1 - r)
  else none

/-- Position `p` of `code` holds one of the two loop brackets. -/
def isBracketAt (code : List Char) (p : Nat) : Prop :=
  code[p]? = some '[' ∨ code[p]? = some ']'

instance (code : List Char) (p : Nat) : Decidable (isBracketAt code p) :=
  inferInstanceAs (Decidable (_ ∨ _))

/-- The `while d_ip < self.c_len` discovery loop of `Brainfuck.__init__`
(THD.py lines 78-110), from position `p` for `fuel` further positions:
at each bracket position record the partner the scan finds, or fail with
`unmatched bracket at pos p` when the scan finds none.  The jump dict is
an association list, one entry per visited bracket position. -/
def buildAux (code : List Char) : Nat → Nat → Except BFErr (List (Nat × Nat))
  | _, 0 => .ok []
  | p, fuel + 1 =>
    match code[p]? with
    | none => .ok []
    | some c =>
      if c = '[' ∨ c = ']' then
        match jumpAt code p with
        | some q => (buildAux code (p + 1) fuel).map (fun l => (p, q) :: l)
        | none => .error (.unmatchedBracket p)
      else buildAux code (p + 1) fuel

/-- The whole jump-table construction over the stripped code. -/
def buildJumps (code : List Char) : Except BFErr (List (Nat × Nat)) :=
  buildAux code 0 code.length

/-- Removal of every non-operator character (THD.py lines 66-70). -/
def stripOps (code : List Char) : List Char :=
  code.filter (fun c => operators.contains c)

/-- `Brainfuck.__init__` (THD.py lines 42-112) without the stream plumbing:
first the global bracket-count check on the raw text (lines 61-62,
error number 1), then stripping, then the jump-table scan.  On success it
returns the operator sequence together with the jump table. -/
def bfInit (raw : List Char) : Except BFErr (List Char × List (Nat × Nat)) :=
  if raw.count '[' ≠ raw.count ']' then .error .unmatchedCount
  else (buildJumps (stripOps raw)).map (fun jl => (stripOps raw, jl))

/-! ## The execution engine -/

/-- The mutable state of `Brainfuck.run` (THD.py lines 129-134): the
instruction pointer, the data pointer (an `Int`, Python never bounds it),
the tape of uint8 cells, the instruction counter, the unread rest of the
input stream (code points), and the output buffer (bytes). -/
structure BFState where
  ip : Nat
  dp : Int
  mem : List Nat
  icnt : Nat
  inp : List Nat
  buf : List Nat
deriving DecidableEq

/-- Result of one iteration of the while loop: an uncaught exception, the
next state, or loop exit because the instruction pointer reached the end
of the code. -/
inductive StepRes where
  | err : BFErr → BFState → StepRes
  | next : BFState → StepRes
  | halt : BFState → StepRes
deriving DecidableEq

/-- numpy index resolution on a one-dimensional array of length `n`:
an index in `[0, n)` is itself, an index in `[-n, 0)` addresses from the
end, anything else raises `IndexError`. -/
def npIdx (n : Nat) (dp : Int) : Option Nat :=
  if 0 ≤ dp ∧ dp < (n : Int) then some dp.toNat
  else if -(n : Int) ≤ dp ∧ dp < 0 then some (dp + (n : Int)).toNat
  else none

/-- Lookup in the association-list jump dict. -/
def alookup : List (Nat × Nat) → Nat → Option Nat
  | [], _ => none
  | (a, b) :: rest, p => if p = a then some b else alookup rest p

/-- One iteration of the while loop of `Brainfuck.run` (THD.py lines
137-166).  The loop guard `ip < c_len` is checked first; then the budget
check `icnt > max_instr and max_instr >= 0` (line 138); then the dispatch
on `code[ip]`; every surviving branch ends with `ip += 1; icnt += 1`
(lines 165-166) - in particular a loop jump assigns `ip = jumps[ip]` and
the increment still happens afterwards.  Cells are numpy uint8: they wrap
mod 256, and `mem[dp]` resolves through `npIdx`.  The `,` branch consumes
one code point when the input is nonempty and stores it mod 256 (numpy
uint8 assignment wraps); at end of input `ord('')` raises, the handler
stores `-1`, i.e. 255 (lines 159-163). -/
def bfStep (code : List Char) (jl : List (Nat × Nat)) (maxInstr : Int)
    (s : BFState) : StepRes :=
  if s.ip < code.length then
    if (s.icnt : Int) > maxInstr ∧ 0 ≤ maxInstr then .err .budget s
    else
      let instr := code.getD s.ip ' '
      if instr = '+' then
        match npIdx s.mem.length s.dp with
        | some i => .next { s with mem := s.mem.set i ((s.mem.getD i 0 + 1) % 256),
                                   ip := s.ip + 1, icnt := s.icnt + 1 }
        | none => .err .indexError s
      else if instr = '-' then
        match npIdx s.mem.length s.dp with
        | some i => .next { s with mem := s.mem.set i ((s.mem.getD i 0 + 255) % 256),
                                   ip := s.ip + 1, icnt := s.icnt + 1 }
        | none => .err .indexError s
      else if instr = '>' then
        .next { s with dp := s.dp + 1, ip := s.ip + 1, icnt := s.icnt + 1 }
      else if instr = '<' then
        .next { s with dp := s.dp - 1, ip := s.ip + 1, icnt := s.icnt + 1 }
      else if instr = '[' then
        match npIdx s.mem.length s.dp with
        | some i =>
          if s.mem.getD i 0 = 0 then
            match alookup jl s.ip with
            | some q => .next { s with ip := q + 1, icnt := s.icnt + 1 }
            | none => .err .keyError s
          else .next { s with ip := s.ip + 1, icnt := s.icnt + 1 }
        | none => .err .indexError s
      else if instr = ']' then
        match npIdx s.mem.length s.dp with
        | some i =>
          if s.mem.getD i 0 ≠ 0 then
            match alookup jl s.ip with
            | some q => .next { s with ip := q + 1, icnt := s.icnt + 1 }
            | none => .err .keyError s
          else .next { s with ip := s.ip + 1, icnt := s.icnt + 1 }
        | none => .err .indexError s
      else if instr = '.' then
        match npIdx s.mem.length s.dp with
        | some i => .next { s with buf := s.buf ++ [s.mem.getD i 0],
                                   ip := s.ip + 1, icnt := s.icnt + 1 }
        | none => .err .indexError s
      else if instr = ',' then
        let v : Nat := match s.inp with | [] => 255 | h :: _ => h % 256
        match npIdx s.mem.length s.dp with
        | some i => .next { s with mem := s.mem.set i v, inp := s.inp.tail,
                                   ip := s.ip + 1, icnt := s.icnt + 1 }
        | none => .err .indexError { s with inp := s.inp.tail }
      else
        .next { s with ip := s.ip + 1, icnt := s.icnt + 1 }
  else .halt s

/-- The while loop itself, driven by fuel: `.next` after `fuel` iterations
means the loop is still running. -/
def bfRunAux (code : List Char) (jl : List (Nat × Nat)) (maxInstr : Int) :
    Nat → BFState → StepRes
  | 0, s => .next s
  | fuel + 1, s =>
    match bfStep code jl maxInstr s with
    | .next s' => bfRunAux code jl maxInstr fuel s'
    | .err e s' => .err e s'
    | .halt s' => .halt s'

/-- The state at the top of `Brainfuck.run` (THD.py lines 129-134): both
pointers and the counter at zero, `mem_size` zeroed cells, empty buffer. -/
def initState (memSize : Nat) (inp : List Nat) : BFState :=
  ⟨0, 0, List.replicate memSize 0, 0, inp, []⟩

/-! ## The final flush

`Brainfuck.run` ends with `output.write(str(buf_out, encoding='UTF-8'))`
(THD.py line 168): the byte buffer is decoded as UTF-8 in one piece and
the resulting string is written to the sink in a single call.  We model
the written string as the list of its code points and give strict UTF-8
decoding explicitly; a buffer that is not valid UTF-8 raises. -/

/-- Strict UTF-8 decoding of a byte list to the list of decoded code
points, `none` on any ill-formed sequence (as Python's strict `'UTF-8'`
codec: overlong forms, surrogates and values above U+10FFFF rejected).
Fuel-driven; `utf8Decode` supplies the list length, which suffices since
every round consumes at least one byte. -/
def utf8DecodeAux : Nat → List Nat → Option (List Nat)
  | 0, [] => some []
  | 0, _ :: _ => none
  | _ + 1, [] => some []
  | fuel + 1, b :: rest =>
    if b < 0x80 then
      (utf8DecodeAux fuel rest).map (fun cs => b :: cs)
    else if 0xC2 ≤ b ∧ b ≤ 0xDF then
      match rest with
      | c1 :: rest1 =>
        if 0x80 ≤ c1 ∧ c1 ≤ 0xBF then
          (utf8DecodeAux fuel rest1).map
            (fun cs => ((b - 0xC0) * 64 + (c1 - 0x80)) :: cs)
        else none
      | [] => none
    else if 0xE0 ≤ b ∧ b ≤ 0xEF then
      match rest with
      | c1 :: c2 :: rest2 =>
        if (if b = 0xE0 then 0xA0 else 0x80) ≤ c1 ∧
            c1 ≤ (if b = 0xED then 0x9F else 0xBF) ∧
            0x80 ≤ c2 ∧ c2 ≤ 0xBF then
          (utf8DecodeAux fuel rest2).map
            (fun cs => ((b - 0xE0) * 4096 + (c1 - 0x80) * 64 + (c2 - 0x80)) :: cs)
        else none
      | _ => none
    else if 0xF0 ≤ b ∧ b ≤ 0xF4 then
      match rest with
      | c1 :: c2 :: c3 :: rest3 =>
        if (if b = 0xF0 then 0x90 else 0x80) ≤ c1 ∧
            c1 ≤ (if b = 0xF4 then 0x8F else 0xBF) ∧
            0x80 ≤ c2 ∧ c2 ≤ 0xBF ∧ 0x80 ≤ c3 ∧ c3 ≤ 0xBF then
          (utf8DecodeAux fuel rest3).map
            (fun cs => ((b - 0xF0) * 262144 + (c1 - 0x80) * 4096 +
                        (c2 - 0x80) * 64 + (c3 - 0x80)) :: cs)
        else none
      | _ => none
    else none

def utf8Decode (l : List Nat) : Option (List Nat) :=
  utf8DecodeAux l.length l

/-- The single write to the sink at the end of the run (THD.py line 168). -/
def bfFlush (buf : List Nat) : Except BFErr (List Nat) :=
  match utf8Decode buf with
  | some cs => .ok cs
  | none => .error .decodeError

/-- A whole `Brainfuck.run` call: run the while loop from the initial
state, then flush the buffer to the sink.  Errors escape before anything
is written; `.noFuel` only reports that the given fuel did not reach the
end of the loop. -/
def bfRunOutput (code : List Char) (jl : List (Nat × Nat)) (maxInstr : Int)
    (memSize : Nat) (inp : List Nat) (fuel : Nat) : Except BFErr (List Nat) :=
  match bfRunAux code jl maxInstr fuel (initState memSize inp) with
  | .halt s => bfFlush s.buf
  | .err e _ => .error e
  | .next _ => .error .noFuel

/-! ## The token translator -/

/-- `TripleHorseDeer.rep_operators` (THD.py line 175), as code-point
lists, in the same order as `operators`. -/
def repOps : List (List Char) :=
  [['い', 'ぬ', 'い'], ['と', 'こ'], ['ア', 'ン'], ['カ', 'ト'],
   ['さ', 'ん'], ['ば', 'か'], ['リ', 'ゼ'], ['エ', 'ス', 'タ']]

/-- `list.index` for the operator character list. -/
def chIdx : List Char → Char → Nat
  | [], _ => 0
  | c :: rest, t => if t = c then 0 else chIdx rest t + 1

/-- `list.index` for the surrogate token list. -/
def tokIdx : List (List Char) → List Char → Nat
  | [], _ => 0
  | tok :: rest, t => if t = tok then 0 else tokIdx rest t + 1

/-- Errors of `TripleHorseDeer._r2b`: the explicit conflict raise (THD.py
lines 199-200), and the `IndexError` that `i[tc]` would raise inside the
candidate comprehension (line 190) were `tc` to reach the length of some
token. -/
inductive TErr where
  | conflict
  | charIdx
deriving DecidableEq

/-- The scanning loop of `TripleHorseDeer._r2b` (THD.py lines 181-203).
One round reads a character `t`; the candidate set is every token whose
character at offset `tc` is `t` (recomputed from the full token list each
round, as in the source).  No candidate: restart with `tc = 0` at the
next character.  A unique candidate: emit its canonical operator and skip
the remaining `len(tok) - tc - 1` characters unverified.  Several: raise
on a fully matched shorter token, otherwise advance `tc`.  Fuel-driven;
each round consumes at least one character. -/
def r2bGo : Nat → List Char → Nat → Except TErr (List Char)
  | 0, _, _ => .ok []
  | _ + 1, [], _ => .ok []
  | fuel + 1, t :: rest, tc =>
    if repOps.any (fun tok => tok.length ≤ tc) then .error .charIdx
    else
      let cand := repOps.filter (fun tok => tok.getD tc ' ' == t)
      if cand.length = 0 then r2bGo fuel rest 0
      else if cand.length = 1 then
        let tok := cand.headD []
        (r2bGo fuel (rest.drop (tok.length - tc - 1)) 0).map
          (fun out => operators.getD (tokIdx repOps tok) ' ' :: out)
      else if cand.any (fun tok => tok.length = tc + 1) then .error .conflict
      else r2bGo fuel rest (tc + 1)

/-- `TripleHorseDeer._r2b`: surface text to canonical operator text. -/
def r2b (l : List Char) : Except TErr (List Char) :=
  r2bGo l.length l 0

/-- `TripleHorseDeer._b2r` (THD.py lines 205-217): canonical to surface,
substituting each operator character by its surrogate token and dropping
everything else. -/
def b2r : List Char → List Char
  | [] => []
  | t :: rest =>
    (if operators.contains t then repOps.getD (chIdx operators t) [] else []) ++
      b2r rest

/-! ## Sanity checks of the embedding on concrete programs -/

example : bfInit ['+', '[', ']'] = .ok (['+', '[', ']'], [(1, 2), (2, 1)]) := by decide

example : bfInit [']', '['] = .error (.unmatchedBracket 0) := by decide

example : bfInit ['[', 'x', ']'] = .ok (['[', ']'], [(0, 1), (1, 0)]) := by decide

example : bfInit ['['] = .error .unmatchedCount := by decide

-- `,.` with input 65 produces output byte 65 (spec section 8 scenario)
example : bfRunOutput [',', '.'] [] (-1) 3 [65] 5 = .ok [65] := by decide

-- `++++++++[>++++++++<-]>.` produces byte 64 on a small tape
example :
    bfRunOutput
      ['+','+','+','+','+','+','+','+','[','>','+','+','+','+','+','+','+','+','<','-',']','>','.']
      ((buildJumps ['+','+','+','+','+','+','+','+','[','>','+','+','+','+','+','+','+','+','<','-',']','>','.']).toOption.getD [])
      (-1) 4 [] 200 = .ok [64] := by decide

-- round trip on a tiny program
example : b2r ['+', '[', ']'] =
    ['い', 'ぬ', 'い', 'さ', 'ん', 'ば', 'か'] := by decide
example : r2b (b2r ['+', '[', ']']) = .ok ['+', '[', ']'] := by decide

/-! ## Characterizations of single steps -/

theorem npIdx_nonneg (n : Nat) (dp : Int) (h : 0 ≤ dp ∧ dp < (n : Int)) :
    npIdx n dp = some dp.toNat := by
  unfold npIdx; rw [if_pos h]

theorem npIdx_neg (n : Nat) (dp : Int) (h : -(n : Int) ≤ dp ∧ dp < 0) :
    npIdx n dp = some (dp + (n : Int)).toNat := by
  unfold npIdx; rw [if_neg (by omega), if_pos h]

theorem npIdx_oob (n : Nat) (dp : Int) (h : dp < -(n : Int) ∨ (n : Int) ≤ dp) :
    npIdx n dp = none := by
  unfold npIdx; rw [if_neg (by omega), if_neg (by omega)]

theorem bfStep_inc (code : List Char) (jl : List (Nat × Nat)) (maxInstr : Int)
    (s : BFState) (i : Nat)
    (hip : s.ip < code.length)
    (hbud : ¬((s.icnt : Int) > maxInstr ∧ 0 ≤ maxInstr))
    (hinstr : code.getD s.ip ' ' = '+')
    (hnp : npIdx s.mem.length s.dp = some i) :
    bfStep code jl maxInstr s =
      .next { s with mem := s.mem.set i ((s.mem.getD i 0 + 1) % 256),
                     ip := s.ip + 1, icnt := s.icnt + 1 } := by
  simp only [bfStep, if_pos hip, if_neg hbud, hinstr, hnp]
  simp

theorem bfStep_inc_oob (code : List Char) (jl : List (Nat × Nat)) (maxInstr : Int)
    (s : BFState)
    (hip : s.ip < code.length)
    (hbud : ¬((s.icnt : Int) > maxInstr ∧ 0 ≤ maxInstr))
    (hinstr : code.getD s.ip ' ' = '+')
    (hnp : npIdx s.mem.length s.dp = none) :
    bfStep code jl maxInstr s = .err .indexError s := by
  simp only [bfStep, if_pos hip, if_neg hbud, hinstr, hnp]
  simp

theorem bfStep_right (code : List Char) (jl : List (Nat × Nat)) (maxInstr : Int)
    (s : BFState)
    (hip : s.ip < code.length)
    (hbud : ¬((s.icnt : Int) > maxInstr ∧ 0 ≤ maxInstr))
    (hinstr : code.getD s.ip ' ' = '>') :
    bfStep code jl maxInstr s =
      .next { s with dp := s.dp + 1, ip := s.ip + 1, icnt := s.icnt + 1 } := by
  simp only [bfStep, if_pos hip, if_neg hbud, hinstr]
  simp

theorem bfStep_open_zero (code : List Char) (jl : List (Nat × Nat)) (maxInstr : Int)
    (s : BFState) (i q : Nat)
    (hip : s.ip < code.length)
    (hbud : ¬((s.icnt : Int) > maxInstr ∧ 0 ≤ maxInstr))
    (hinstr : code.getD s.ip ' ' = '[')
    (hnp : npIdx s.mem.length s.dp = some i)
    (hcell : s.mem.getD i 0 = 0)
    (hq : alookup jl s.ip = some q) :
    bfStep code jl maxInstr s = .next { s with ip := q + 1, icnt := s.icnt + 1 } := by
  have hcell' : s.mem[i]?.getD 0 = 0 := by
    simpa [List.getD_eq_getElem?_getD] using hcell
  simp only [bfStep, if_pos hip, if_neg hbud, hinstr, hnp]
  simp [hcell', hq]

theorem bfStep_close_nonzero (code : List Char) (jl : List (Nat × Nat)) (maxInstr : Int)
    (s : BFState) (i q : Nat)
    (hip : s.ip < code.length)
    (hbud : ¬((s.icnt : Int) > maxInstr ∧ 0 ≤ maxInstr))
    (hinstr : code.getD s.ip ' ' = ']')
    (hnp : npIdx s.mem.length s.dp = some i)
    (hcell : s.mem.getD i 0 ≠ 0)
    (hq : alookup jl s.ip = some q) :
    bfStep code jl maxInstr s = .next { s with ip := q + 1, icnt := s.icnt + 1 } := by
  have hcell' : ¬(s.mem[i]?.getD 0 = 0) := by
    simpa [List.getD_eq_getElem?_getD] using hcell
  simp only [bfStep, if_pos hip, if_neg hbud, hinstr, hnp]
  simp [hcell', hq]

theorem bfStep_input (code : List Char) (jl : List (Nat × Nat)) (maxInstr : Int)
    (s : BFState) (i : Nat)
    (hip : s.ip < code.length)
    (hbud : ¬((s.icnt : Int) > maxInstr ∧ 0 ≤ maxInstr))
    (hinstr : code.getD s.ip ' ' = ',')
    (hnp : npIdx s.mem.length s.dp = some i) :
    bfStep code jl maxInstr s =
      .next { s with mem := s.mem.set i (match s.inp with | [] => 255 | h :: _ => h % 256),
                     inp := s.inp.tail, ip := s.ip + 1, icnt := s.icnt + 1 } := by
  simp only [bfStep, if_pos hip, if_neg hbud, hinstr, hnp]
  simp

/-! ## C1: budget enforcement -/

/-- C1 counterexample.  The claim says the run of `+[]` with instruction
budget 1000 fails after exactly 1000 executed steps, never more.  In the
code the counter is incremented after each executed step and the check
fires only once the counter strictly exceeds the budget, so the 1001st
step still executes: after 1001 iterations of the loop the run is still
going (`.next`) and the counter stands at 1001.  (The jump table passed
in is the one `bfInit` produces, as the first conjunct records.) -/
theorem c1_counterexample :
    bfInit ['+', '[', ']'] = .ok (['+', '[', ']'], [(1, 2), (2, 1)]) ∧
    bfRunAux ['+', '[', ']'] [(1, 2), (2, 1)] 1000 1001 (initState 1 []) =
      .next ⟨2, 0, [1], 1001, [], []⟩ := by
  refine ⟨by decide, by decide⟩

/-- C1 amended: with instruction budget 1000 the run of `+[]` fails with
the Resource-Exhausted error after exactly 1001 executed steps - the
budget check `icnt > max_instr` is made before each step, and the counter
is incremented after each executed step, so a budget `b` admits `b + 1`
steps.  At fuel 1002 the loop raises the budget error with the counter at
1001 (together with `c1_counterexample`: never fewer than 1001 steps,
never more). -/
theorem c1_amended :
    bfRunAux ['+', '[', ']'] [(1, 2), (2, 1)] 1000 1002 (initState 1 []) =
      .err .budget ⟨2, 0, [1], 1001, [], []⟩ := by
  decide

/-! ## C2: the loop-jump step rule -/

/-- C2 counterexample.  On `[]` with the current cell zero the claim says
the step sets the instruction pointer to the jump-table partner position
1; the code assigns `ip = jumps[ip]` and then still runs `ip += 1`, so
the step ends with the instruction pointer at 2. -/
theorem c2_counterexample :
    bfInit ['[', ']'] = .ok (['[', ']'], [(0, 1), (1, 0)]) ∧
    bfStep ['[', ']'] [(0, 1), (1, 0)] (-1) (initState 1 []) =
      .next ⟨2, 0, [0], 1, [], []⟩ := by
  refine ⟨by decide, by decide⟩

/-- C2 amended.  A LoopOpen at a zero cell and a LoopClose at a non-zero
cell set the instruction pointer to the jump-table partner position PLUS
ONE (the unconditional final increment applies to jump steps as well);
every other step increments the instruction pointer by exactly 1, as the
MoveRight case illustrates. -/
theorem c2_amended (code : List Char) (jl : List (Nat × Nat)) (maxInstr : Int)
    (s : BFState) (i q : Nat)
    (hip : s.ip < code.length)
    (hbud : ¬((s.icnt : Int) > maxInstr ∧ 0 ≤ maxInstr))
    (hnp : npIdx s.mem.length s.dp = some i) :
    (code.getD s.ip ' ' = '[' → s.mem.getD i 0 = 0 → alookup jl s.ip = some q →
       bfStep code jl maxInstr s = .next { s with ip := q + 1, icnt := s.icnt + 1 }) ∧
    (code.getD s.ip ' ' = ']' → s.mem.getD i 0 ≠ 0 → alookup jl s.ip = some q →
       bfStep code jl maxInstr s = .next { s with ip := q + 1, icnt := s.icnt + 1 }) ∧
    (code.getD s.ip ' ' = '>' →
       bfStep code jl maxInstr s =
         .next { s with dp := s.dp + 1, ip := s.ip + 1, icnt := s.icnt + 1 }) := by
  refine ⟨fun h1 h2 h3 => ?_, fun h1 h2 h3 => ?_, fun h1 => ?_⟩
  · exact bfStep_open_zero code jl maxInstr s i q hip hbud h1 hnp h2 h3
  · exact bfStep_close_nonzero code jl maxInstr s i q hip hbud h1 hnp h2 h3
  · exact bfStep_right code jl maxInstr s hip hbud h1

theorem c2_amended_witness :
    bfStep ['[', ']'] [(0, 1), (1, 0)] (-1) ⟨0, 0, [0], 0, [], []⟩ =
      .next ⟨2, 0, [0], 1, [], []⟩ ∧
    bfStep ['[', ']'] [(0, 1), (1, 0)] (-1) ⟨1, 0, [1], 0, [], []⟩ =
      .next ⟨1, 0, [1], 1, [], []⟩ ∧
    bfStep ['>'] [] (-1) ⟨0, 0, [0], 0, [], []⟩ =
      .next ⟨1, 1, [0], 1, [], []⟩ :=
  ⟨(c2_amended ['[', ']'] [(0, 1), (1, 0)] (-1) ⟨0, 0, [0], 0, [], []⟩ 0 1
      (by decide) (by decide) (by decide)).1 (by decide) (by decide) (by decide),
   (c2_amended ['[', ']'] [(0, 1), (1, 0)] (-1) ⟨1, 0, [1], 0, [], []⟩ 0 0
      (by decide) (by decide) (by decide)).2.1 (by decide) (by decide) (by decide),
   (c2_amended ['>'] [] (-1) ⟨0, 0, [0], 0, [], []⟩ 0 0
      (by decide) (by decide) (by decide)).2.2 (by decide)⟩

/-! ## C3: data-pointer bounds -/

/-- C3 counterexample.  The claim says that moving the data pointer
outside `[0, tape length)` fails the run with an Out-of-Bounds error and
that no cell other than the one at an in-range data pointer is ever
written.  Running `<+` on a 3-cell tape moves the data pointer to -1 and
then increments: numpy resolves the negative index silently to the LAST
cell, the run halts normally and the tape ends as `[0, 0, 1]`. -/
theorem c3_counterexample :
    bfRunAux ['<', '+'] [] (-1) 3 (initState 3 []) =
      .halt ⟨2, -1, [0, 0, 1], 2, [], []⟩ := by
  decide

/-- C3 amended.  The engine never checks the data pointer itself: for a
memory-accessing operator (Increment shown), a data pointer in
`[-n, 0)` is silently wrapped to the cell at index `dp + n` (numpy
negative indexing) and the run continues, while a data pointer outside
`[-n, n)` raises a generic `IndexError` - a failure, but not a distinct
Out-of-Bounds error kind, and only at the access, not at the move. -/
theorem c3_amended (code : List Char) (jl : List (Nat × Nat)) (maxInstr : Int)
    (s : BFState)
    (hip : s.ip < code.length)
    (hbud : ¬((s.icnt : Int) > maxInstr ∧ 0 ≤ maxInstr))
    (hinstr : code.getD s.ip ' ' = '+') :
    (-(s.mem.length : Int) ≤ s.dp ∧ s.dp < 0 →
       bfStep code jl maxInstr s =
         .next { s with
                   mem := s.mem.set (s.dp + (s.mem.length : Int)).toNat
                     ((s.mem.getD (s.dp + (s.mem.length : Int)).toNat 0 + 1) % 256),
                   ip := s.ip + 1, icnt := s.icnt + 1 }) ∧
    (s.dp < -(s.mem.length : Int) ∨ (s.mem.length : Int) ≤ s.dp →
       bfStep code jl maxInstr s = .err .indexError s) := by
  constructor
  · intro h
    exact bfStep_inc code jl maxInstr s _ hip hbud hinstr
      (npIdx_neg s.mem.length s.dp h)
  · intro h
    exact bfStep_inc_oob code jl maxInstr s hip hbud hinstr
      (npIdx_oob s.mem.length s.dp h)

theorem c3_amended_witness :
    bfStep ['+'] [] (-1) ⟨0, -1, [5, 6], 0, [], []⟩ =
      .next ⟨1, -1, [5, 7], 1, [], []⟩ ∧
    bfStep ['+'] [] (-1) ⟨0, 5, [5, 6], 0, [], []⟩ =
      .err .indexError ⟨0, 5, [5, 6], 0, [], []⟩ :=
  ⟨(c3_amended ['+'] [] (-1) ⟨0, -1, [5, 6], 0, [], []⟩
      (by decide) (by decide) (by decide)).1 (by decide),
   (c3_amended ['+'] [] (-1) ⟨0, 5, [5, 6], 0, [], []⟩
      (by decide) (by decide) (by decide)).2 (by decide)⟩

/-! ## C4: the Input operator -/

/-- C4.  At an in-range data pointer the Input operator never fails the
run: it always produces a `.next` state.  With input available it stores
the read value masked to 8 bits (`% 256`, numpy uint8 assignment) in the
current cell and consumes it from the stream; at end of input (the
`ord('')` failure path) it stores the sentinel 255 and the run continues. -/
theorem c4_input_sentinel (code : List Char) (jl : List (Nat × Nat)) (maxInstr : Int)
    (s : BFState)
    (hip : s.ip < code.length)
    (hbud : ¬((s.icnt : Int) > maxInstr ∧ 0 ≤ maxInstr))
    (hinstr : code.getD s.ip ' ' = ',')
    (hdp : 0 ≤ s.dp ∧ s.dp < (s.mem.length : Int)) :
    bfStep code jl maxInstr s =
      .next { s with mem := s.mem.set s.dp.toNat
                       (match s.inp with | [] => 255 | h :: _ => h % 256),
                     inp := s.inp.tail, ip := s.ip + 1, icnt := s.icnt + 1 } :=
  bfStep_input code jl maxInstr s s.dp.toNat hip hbud hinstr
    (npIdx_nonneg s.mem.length s.dp hdp)

theorem c4_witness :
    bfStep [','] [] (-1) ⟨0, 0, [0], 0, [300], []⟩ = .next ⟨1, 0, [44], 1, [], []⟩ ∧
    bfStep [','] [] (-1) ⟨0, 0, [7], 0, [], []⟩ = .next ⟨1, 0, [255], 1, [], []⟩ :=
  ⟨c4_input_sentinel [','] [] (-1) ⟨0, 0, [0], 0, [300], []⟩
     (by decide) (by decide) (by decide) (by decide),
   c4_input_sentinel [','] [] (-1) ⟨0, 0, [7], 0, [], []⟩
     (by decide) (by decide) (by decide) (by decide)⟩

/-! ## C9: cell arithmetic wraps mod 256 -/

/-- 256 Increment operators in a row. -/
def incProg : List Char := List.replicate 256 '+'

theorem incRun : ∀ (fuel j v : Nat), j + fuel = 256 → v < 256 →
    bfRunAux incProg [] (-1) (fuel + 1) ⟨j, 0, [v], j, [], []⟩ =
      .halt ⟨256, 0, [(v + fuel) % 256], 256, [], []⟩ := by
  intro fuel
  induction fuel with
  | zero =>
    intro j v hj hv
    have hj' : j = 256 := by omega
    subst hj'
    have hlen : incProg.length = 256 := by simp [incProg]
    simp [bfRunAux, bfStep, hlen, Nat.mod_eq_of_lt hv]
  | succ f ih =>
    intro j v hj hv
    have hjlt : j < 256 := by omega
    have hlen : incProg.length = 256 := by simp [incProg]
    have hinstr : incProg.getD j ' ' = '+' := by
      unfold incProg
      rw [List.getD_eq_getElem?_getD, List.getElem?_replicate, if_pos hjlt]
      rfl
    have hstep : bfStep incProg [] (-1) ⟨j, 0, [v], j, [], []⟩ =
        .next ⟨j + 1, 0, [(v + 1) % 256], j + 1, [], []⟩ := by
      have h := bfStep_inc incProg [] (-1) ⟨j, 0, [v], j, [], []⟩ 0
        (by simpa [hlen]) (by simp) hinstr (by simp [npIdx])
      simpa using h
    have hrec := ih (j + 1) ((v + 1) % 256) (by omega) (Nat.mod_lt _ (by omega))
    calc bfRunAux incProg [] (-1) (f + 1 + 1) ⟨j, 0, [v], j, [], []⟩
        = bfRunAux incProg [] (-1) (f + 1) ⟨j + 1, 0, [(v + 1) % 256], j + 1, [], []⟩ := by
          simp only [bfRunAux, hstep]
      _ = .halt ⟨256, 0, [((v + 1) % 256 + f) % 256], 256, [], []⟩ := hrec
      _ = .halt ⟨256, 0, [(v + (f + 1)) % 256], 256, [], []⟩ := by
          rw [Nat.mod_add_mod]
          congr 3
          omega

/-- C9.  Cell arithmetic wraps modulo 256: running 256 Increment
operators over a cell holding any value `v < 256` halts with the cell
back at `v`; and a Decrement step on a cell holding 0 leaves 255 in it. -/
theorem c9_wrap :
    (∀ v : Nat, v < 256 →
       bfRunAux incProg [] (-1) 257 ⟨0, 0, [v], 0, [], []⟩ =
         .halt ⟨256, 0, [v], 256, [], []⟩) ∧
    bfStep ['-'] [] (-1) ⟨0, 0, [0], 0, [], []⟩ = .next ⟨1, 0, [255], 1, [], []⟩ := by
  constructor
  · intro v hv
    have h := incRun 256 0 v (by omega) hv
    have hm : (v + 256) % 256 = v := by omega
    rw [hm] at h
    exact h
  · decide

theorem c9_witness :
    bfRunAux incProg [] (-1) 257 ⟨0, 0, [7], 0, [], []⟩ =
      .halt ⟨256, 0, [7], 256, [], []⟩ :=
  c9_wrap.1 7 (by decide)

/-! ## C8: output buffering and the final flush -/

theorem utf8DecodeAux_ascii : ∀ (l : List Nat) (fuel : Nat), (∀ b ∈ l, b < 128) →
    l.length ≤ fuel → utf8DecodeAux fuel l = some l := by
  intro l
  induction l with
  | nil => intro fuel _ _; cases fuel <;> rfl
  | cons b rest ih =>
    intro fuel hb hlen
    obtain ⟨f, rfl⟩ : ∃ f, fuel = f + 1 := ⟨fuel - 1, by simp at hlen; omega⟩
    have hb0 : b < 128 := hb b (.head _)
    have hrest : utf8DecodeAux f rest = some rest :=
      ih f (fun x hx => hb x (.tail _ hx)) (by simp at hlen; omega)
    simp only [utf8DecodeAux, if_pos hb0, hrest, Option.map_some']

theorem utf8Decode_ascii (l : List Nat) (h : ∀ b ∈ l, b < 128) :
    utf8Decode l = some l :=
  utf8DecodeAux_ascii l l.length h le_rfl

/-- C8 counterexample.  The claim says that after the run completes the
sink receives exactly the buffered bytes.  The run of `-.` completes
normally with output buffer `[255]`, but the single flush decodes the
buffer as UTF-8 and the byte 255 is never valid UTF-8: the flush raises
and the sink receives nothing. -/
theorem c8_counterexample :
    bfRunAux ['-', '.'] [] (-1) 3 (initState 1 []) =
      .halt ⟨2, 0, [255], 2, [], [255]⟩ ∧
    bfRunOutput ['-', '.'] [] (-1) 1 [] 3 = .error .decodeError := by
  refine ⟨by decide, by decide⟩

/-- C8 amended.  Output bytes accumulate in the in-memory buffer and the
sink is written exactly once, after the while loop has halted: when the
loop halts in state `s` and the buffered bytes are plain ASCII (every
byte < 128, so the UTF-8 decoding is the identity), the sink receives
exactly the buffered bytes.  When the buffer is not valid UTF-8 the
flush itself raises and the sink receives nothing (`c8_counterexample`);
a run that fails mid-loop also writes nothing. -/
theorem c8_flush_once (code : List Char) (jl : List (Nat × Nat)) (maxInstr : Int)
    (memSize : Nat) (inp : List Nat) (fuel : Nat) (s : BFState)
    (hrun : bfRunAux code jl maxInstr fuel (initState memSize inp) = .halt s)
    (hascii : ∀ b ∈ s.buf, b < 128) :
    bfRunOutput code jl maxInstr memSize inp fuel = .ok s.buf := by
  unfold bfRunOutput
  rw [hrun]
  show bfFlush s.buf = .ok s.buf
  unfold bfFlush
  rw [utf8Decode_ascii s.buf hascii]

theorem c8_witness : bfRunOutput ['.'] [] (-1) 1 [] 2 = .ok [0] :=
  c8_flush_once ['.'] [] (-1) 1 [] 2 ⟨1, 0, [0], 1, [], [0]⟩ (by decide) (by decide)

/-! ## C6: the translator round trip -/

theorem r2bGo_b2r : ∀ (s : List Char) (fuel : Nat), (∀ c ∈ s, c ∈ operators) →
    (b2r s).length ≤ fuel → r2bGo fuel (b2r s) 0 = .ok s := by
  intro s
  induction s with
  | nil => intro fuel _ _; cases fuel <;> rfl
  | cons c s' ih =>
    intro fuel h hlen
    have hmem' : ∀ x ∈ s', x ∈ operators := fun x hx => h x (.tail _ hx)
    have hc : c ∈ operators := h c (.head _)
    simp only [operators, List.mem_cons, List.not_mem_nil, or_false] at hc
    rcases hc with rfl | rfl | rfl | rfl | rfl | rfl | rfl | rfl
    · have hb : b2r ('+' :: s') = 'い' :: 'ぬ' :: 'い' :: b2r s' := rfl
      rw [hb] at hlen ⊢
      obtain ⟨f, rfl⟩ : ∃ f, fuel = f + 1 := ⟨fuel - 1, by simp at hlen; omega⟩
      have hstep : r2bGo (f + 1) ('い' :: 'ぬ' :: 'い' :: b2r s') 0 =
          (r2bGo f (b2r s') 0).map (fun out => '+' :: out) := rfl
      rw [hstep, ih f hmem' (by simp at hlen; omega)]
      rfl
    · have hb : b2r ('-' :: s') = 'と' :: 'こ' :: b2r s' := rfl
      rw [hb] at hlen ⊢
      obtain ⟨f, rfl⟩ : ∃ f, fuel = f + 1 := ⟨fuel - 1, by simp at hlen; omega⟩
      have hstep : r2bGo (f + 1) ('と' :: 'こ' :: b2r s') 0 =
          (r2bGo f (b2r s') 0).map (fun out => '-' :: out) := rfl
      rw [hstep, ih f hmem' (by simp at hlen; omega)]
      rfl
    · have hb : b2r ('>' :: s') = 'ア' :: 'ン' :: b2r s' := rfl
      rw [hb] at hlen ⊢
      obtain ⟨f, rfl⟩ : ∃ f, fuel = f + 1 := ⟨fuel - 1, by simp at hlen; omega⟩
      have hstep : r2bGo (f + 1) ('ア' :: 'ン' :: b2r s') 0 =
          (r2bGo f (b2r s') 0).map (fun out => '>' :: out) := rfl
      rw [hstep, ih f hmem' (by simp at hlen; omega)]
      rfl
    · have hb : b2r ('<' :: s') = 'カ' :: 'ト' :: b2r s' := rfl
      rw [hb] at hlen ⊢
      obtain ⟨f, rfl⟩ : ∃ f, fuel = f + 1 := ⟨fuel - 1, by simp at hlen; omega⟩
      have hstep : r2bGo (f + 1) ('カ' :: 'ト' :: b2r s') 0 =
          (r2bGo f (b2r s') 0).map (fun out => '<' :: out) := rfl
      rw [hstep, ih f hmem' (by simp at hlen; omega)]
      rfl
    · have hb : b2r ('[' :: s') = 'さ' :: 'ん' :: b2r s' := rfl
      rw [hb] at hlen ⊢
      obtain ⟨f, rfl⟩ : ∃ f, fuel = f + 1 := ⟨fuel - 1, by simp at hlen; omega⟩
      have hstep : r2bGo (f + 1) ('さ' :: 'ん' :: b2r s') 0 =
          (r2bGo f (b2r s') 0).map (fun out => '[' :: out) := rfl
      rw [hstep, ih f hmem' (by simp at hlen; omega)]
      rfl
    · have hb : b2r (']' :: s') = 'ば' :: 'か' :: b2r s' := rfl
      rw [hb] at hlen ⊢
      obtain ⟨f, rfl⟩ : ∃ f, fuel = f + 1 := ⟨fuel - 1, by simp at hlen; omega⟩
      have hstep : r2bGo (f + 1) ('ば' :: 'か' :: b2r s') 0 =
          (r2bGo f (b2r s') 0).map (fun out => ']' :: out) := rfl
      rw [hstep, ih f hmem' (by simp at hlen; omega)]
      rfl
    · have hb : b2r ('.' :: s') = 'リ' :: 'ゼ' :: b2r s' := rfl
      rw [hb] at hlen ⊢
      obtain ⟨f, rfl⟩ : ∃ f, fuel = f + 1 := ⟨fuel - 1, by simp at hlen; omega⟩
      have hstep : r2bGo (f + 1) ('リ' :: 'ゼ' :: b2r s') 0 =
          (r2bGo f (b2r s') 0).map (fun out => '.' :: out) := rfl
      rw [hstep, ih f hmem' (by simp at hlen; omega)]
      rfl
    · have hb : b2r (',' :: s') = 'エ' :: 'ス' :: 'タ' :: b2r s' := rfl
      rw [hb] at hlen ⊢
      obtain ⟨f, rfl⟩ : ∃ f, fuel = f + 1 := ⟨fuel - 1, by simp at hlen; omega⟩
      have hstep : r2bGo (f + 1) ('エ' :: 'ス' :: 'タ' :: b2r s') 0 =
          (r2bGo f (b2r s') 0).map (fun out => ',' :: out) := rfl
      rw [hstep, ih f hmem' (by simp at hlen; omega)]
      rfl

/-- C6.  Translating a canonical operator sequence to surface form
(`_b2r`) and back through the scanning translator (`_r2b`) returns the
original sequence: the eight surrogate tokens have pairwise distinct
first characters, so each round of the scanner resolves its candidate
set to a single token at offset 0 and skips exactly that token. -/
theorem c6_roundtrip (s : List Char) (h : ∀ c ∈ s, c ∈ operators) :
    r2b (b2r s) = .ok s :=
  r2bGo_b2r s (b2r s).length h le_rfl

theorem c6_witness :
    r2b (b2r ['+', '-', '>', '<', '[', ']', '.', ',']) =
      .ok ['+', '-', '>', '<', '[', ']', '.', ','] :=
  c6_roundtrip ['+', '-', '>', '<', '[', ']', '.', ','] (by decide)

/-! ## C10: determinism

The step rule of `Brainfuck.run` as an operational-semantics relation,
one constructor per branch of the while-loop body, each depending only
on the explicit inputs (operator sequence, jump table, budget) and the
current state.  `stepR_agree` shows the relation computes `bfStep`, so
it is functional; `runR` strings steps together to a finished outcome,
and any two finished outcomes from the same inputs coincide. -/

inductive StepR (code : List Char) (jl : List (Nat × Nat)) (maxInstr : Int) :
    BFState → StepRes → Prop where
  | halt (s : BFState) (h : ¬ s.ip < code.length) :
      StepR code jl maxInstr s (.halt s)
  | budget (s : BFState) (h : s.ip < code.length)
      (hb : (s.icnt : Int) > maxInstr ∧ 0 ≤ maxInstr) :
      StepR code jl maxInstr s (.err .budget s)
  | inc (s : BFState) (i : Nat) (h : s.ip < code.length)
      (hb : ¬((s.icnt : Int) > maxInstr ∧ 0 ≤ maxInstr))
      (hc : code.getD s.ip ' ' = '+') (hi : npIdx s.mem.length s.dp = some i) :
      StepR code jl maxInstr s
        (.next { s with mem := s.mem.set i ((s.mem.getD i 0 + 1) % 256),
                        ip := s.ip + 1, icnt := s.icnt + 1 })
  | incOob (s : BFState) (h : s.ip < code.length)
      (hb : ¬((s.icnt : Int) > maxInstr ∧ 0 ≤ maxInstr))
      (hc : code.getD s.ip ' ' = '+') (hi : npIdx s.mem.length s.dp = none) :
      StepR code jl maxInstr s (.err .indexError s)
  | dec (s : BFState) (i : Nat) (h : s.ip < code.length)
      (hb : ¬((s.icnt : Int) > maxInstr ∧ 0 ≤ maxInstr))
      (hc : code.getD s.ip ' ' = '-') (hi : npIdx s.mem.length s.dp = some i) :
      StepR code jl maxInstr s
        (.next { s with mem := s.mem.set i ((s.mem.getD i 0 + 255) % 256),
                        ip := s.ip + 1, icnt := s.icnt + 1 })
  | decOob (s : BFState) (h : s.ip < code.length)
      (hb : ¬((s.icnt : Int) > maxInstr ∧ 0 ≤ maxInstr))
      (hc : code.getD s.ip ' ' = '-') (hi : npIdx s.mem.length s.dp = none) :
      StepR code jl maxInstr s (.err .indexError s)
  | right (s : BFState) (h : s.ip < code.length)
      (hb : ¬((s.icnt : Int) > maxInstr ∧ 0 ≤ maxInstr))
      (hc : code.getD s.ip ' ' = '>') :
      StepR code jl maxInstr s
        (.next { s with dp := s.dp + 1, ip := s.ip + 1, icnt := s.icnt + 1 })
  | left (s : BFState) (h : s.ip < code.length)
      (hb : ¬((s.icnt : Int) > maxInstr ∧ 0 ≤ maxInstr))
      (hc : code.getD s.ip ' ' = '<') :
      StepR code jl maxInstr s
        (.next { s with dp := s.dp - 1, ip := s.ip + 1, icnt := s.icnt + 1 })
  | openZero (s : BFState) (i q : Nat) (h : s.ip < code.length)
      (hb : ¬((s.icnt : Int) > maxInstr ∧ 0 ≤ maxInstr))
      (hc : code.getD s.ip ' ' = '[') (hi : npIdx s.mem.length s.dp = some i)
      (hz : s.mem.getD i 0 = 0) (hq : alookup jl s.ip = some q) :
      StepR code jl maxInstr s (.next { s with ip := q + 1, icnt := s.icnt + 1 })
  | openZeroMiss (s : BFState) (i : Nat) (h : s.ip < code.length)
      (hb : ¬((s.icnt : Int) > maxInstr ∧ 0 ≤ maxInstr))
      (hc : code.getD s.ip ' ' = '[') (hi : npIdx s.mem.length s.dp = some i)
      (hz : s.mem.getD i 0 = 0) (hq : alookup jl s.ip = none) :
      StepR code jl maxInstr s (.err .keyError s)
  | openNonzero (s : BFState) (i : Nat) (h : s.ip < code.length)
      (hb : ¬((s.icnt : Int) > maxInstr ∧ 0 ≤ maxInstr))
      (hc : code.getD s.ip ' ' = '[') (hi : npIdx s.mem.length s.dp = some i)
      (hz : s.mem.getD i 0 ≠ 0) :
      StepR code jl maxInstr s
        (.next { s with ip := s.ip + 1, icnt := s.icnt + 1 })
  | openOob (s : BFState) (h : s.ip < code.length)
      (hb : ¬((s.icnt : Int) > maxInstr ∧ 0 ≤ maxInstr))
      (hc : code.getD s.ip ' ' = '[') (hi : npIdx s.mem.length s.dp = none) :
      StepR code jl maxInstr s (.err .indexError s)
  | closeNonzero (s : BFState) (i q : Nat) (h : s.ip < code.length)
      (hb : ¬((s.icnt : Int) > maxInstr ∧ 0 ≤ maxInstr))
      (hc : code.getD s.ip ' ' = ']') (hi : npIdx s.mem.length s.dp = some i)
      (hz : s.mem.getD i 0 ≠ 0) (hq : alookup jl s.ip = some q) :
      StepR code jl maxInstr s (.next { s with ip := q + 1, icnt := s.icnt + 1 })
  | closeNonzeroMiss (s : BFState) (i : Nat) (h : s.ip < code.length)
      (hb : ¬((s.icnt : Int) > maxInstr ∧ 0 ≤ maxInstr))
      (hc : code.getD s.ip ' ' = ']') (hi : npIdx s.mem.length s.dp = some i)
      (hz : s.mem.getD i 0 ≠ 0) (hq : alookup jl s.ip = none) :
      StepR code jl maxInstr s (.err .keyError s)
  | closeZero (s : BFState) (i : Nat) (h : s.ip < code.length)
      (hb : ¬((s.icnt : Int) > maxInstr ∧ 0 ≤ maxInstr))
      (hc : code.getD s.ip ' ' = ']') (hi : npIdx s.mem.length s.dp = some i)
      (hz : s.mem.getD i 0 = 0) :
      StepR code jl maxInstr s
        (.next { s with ip := s.ip + 1, icnt := s.icnt + 1 })
  | closeOob (s : BFState) (h : s.ip < code.length)
      (hb : ¬((s.icnt : Int) > maxInstr ∧ 0 ≤ maxInstr))
      (hc : code.getD s.ip ' ' = ']') (hi : npIdx s.mem.length s.dp = none) :
      StepR code jl maxInstr s (.err .indexError s)
  | out (s : BFState) (i : Nat) (h : s.ip < code.length)
      (hb : ¬((s.icnt : Int) > maxInstr ∧ 0 ≤ maxInstr))
      (hc : code.getD s.ip ' ' = '.') (hi : npIdx s.mem.length s.dp = some i) :
      StepR code jl maxInstr s
        (.next { s with buf := s.buf ++ [s.mem.getD i 0],
                        ip := s.ip + 1, icnt := s.icnt + 1 })
  | outOob (s : BFState) (h : s.ip < code.length)
      (hb : ¬((s.icnt : Int) > maxInstr ∧ 0 ≤ maxInstr))
      (hc : code.getD s.ip ' ' = '.') (hi : npIdx s.mem.length s.dp = none) :
      StepR code jl maxInstr s (.err .indexError s)
  | read (s : BFState) (i : Nat) (h : s.ip < code.length)
      (hb : ¬((s.icnt : Int) > maxInstr ∧ 0 ≤ maxInstr))
      (hc : code.getD s.ip ' ' = ',') (hi : npIdx s.mem.length s.dp = some i) :
      StepR code jl maxInstr s
        (.next { s with
                   mem := s.mem.set i (match s.inp with | [] => 255 | h :: _ => h % 256),
                   inp := s.inp.tail, ip := s.ip + 1, icnt := s.icnt + 1 })
  | readOob (s : BFState) (h : s.ip < code.length)
      (hb : ¬((s.icnt : Int) > maxInstr ∧ 0 ≤ maxInstr))
      (hc : code.getD s.ip ' ' = ',') (hi : npIdx s.mem.length s.dp = none) :
      StepR code jl maxInstr s (.err .indexError { s with inp := s.inp.tail })
  | other (s : BFState) (h : s.ip < code.length)
      (hb : ¬((s.icnt : Int) > maxInstr ∧ 0 ≤ maxInstr))
      (hc : ¬ code.getD s.ip ' ' ∈ operators) :
      StepR code jl maxInstr s
        (.next { s with ip := s.ip + 1, icnt := s.icnt + 1 })

/-- The relation computes exactly `bfStep`: it is functional. -/
theorem stepR_agree (code : List Char) (jl : List (Nat × Nat)) (maxInstr : Int)
    (s : BFState) (r : StepRes) (hr : StepR code jl maxInstr s r) :
    bfStep code jl maxInstr s = r := by
  cases hr with
  | halt h => simp only [bfStep, if_neg h]
  | budget h hb => simp only [bfStep, if_pos h, if_pos hb]
  | inc i h hb hc hi =>
    exact bfStep_inc code jl maxInstr s i h hb hc hi
  | incOob h hb hc hi =>
    exact bfStep_inc_oob code jl maxInstr s h hb hc hi
  | dec i h hb hc hi =>
    simp only [bfStep, if_pos h, if_neg hb, hc, hi]
    simp
  | decOob h hb hc hi =>
    simp only [bfStep, if_pos h, if_neg hb, hc, hi]
    simp
  | right h hb hc =>
    exact bfStep_right code jl maxInstr s h hb hc
  | left h hb hc =>
    simp only [bfStep, if_pos h, if_neg hb, hc]
    simp
  | openZero i q h hb hc hi hz hq =>
    exact bfStep_open_zero code jl maxInstr s i q h hb hc hi hz hq
  | openZeroMiss i h hb hc hi hz hq =>
    have hz' : s.mem[i]?.getD 0 = 0 := by simpa [List.getD_eq_getElem?_getD] using hz
    simp only [bfStep, if_pos h, if_neg hb, hc, hi]
    simp [hz', hq]
  | openNonzero i h hb hc hi hz =>
    have hz' : ¬(s.mem[i]?.getD 0 = 0) := by simpa [List.getD_eq_getElem?_getD] using hz
    simp only [bfStep, if_pos h, if_neg hb, hc, hi]
    simp [hz']
  | openOob h hb hc hi =>
    simp only [bfStep, if_pos h, if_neg hb, hc, hi]
    simp
  | closeNonzero i q h hb hc hi hz hq =>
    exact bfStep_close_nonzero code jl maxInstr s i q h hb hc hi hz hq
  | closeNonzeroMiss i h hb hc hi hz hq =>
    have hz' : ¬(s.mem[i]?.getD 0 = 0) := by simpa [List.getD_eq_getElem?_getD] using hz
    simp only [bfStep, if_pos h, if_neg hb, hc, hi]
    simp [hz', hq]
  | closeZero i h hb hc hi hz =>
    have hz' : s.mem[i]?.getD 0 = 0 := by simpa [List.getD_eq_getElem?_getD] using hz
    simp only [bfStep, if_pos h, if_neg hb, hc, hi]
    simp [hz']
  | closeOob h hb hc hi =>
    simp only [bfStep, if_pos h, if_neg hb, hc, hi]
    simp
  | out i h hb hc hi =>
    simp only [bfStep, if_pos h, if_neg hb, hc, hi]
    simp
  | outOob h hb hc hi =>
    simp only [bfStep, if_pos h, if_neg hb, hc, hi]
    simp
  | read i h hb hc hi =>
    exact bfStep_input code jl maxInstr s i h hb hc hi
  | readOob h hb hc hi =>
    simp only [bfStep, if_pos h, if_neg hb, hc, hi]
    simp
  | other h hb hc =>
    simp only [operators, List.mem_cons, List.not_mem_nil, or_false, not_or] at hc
    obtain ⟨h1, h2, h3, h4, h5, h6, h7, h8⟩ := hc
    simp only [bfStep, if_pos h, if_neg hb, if_neg h1, if_neg h2, if_neg h3,
      if_neg h4, if_neg h5, if_neg h6, if_neg h7, if_neg h8]

/-- A whole run in relational form: iterate the step relation until the
loop halts or raises. -/
inductive RunR (code : List Char) (jl : List (Nat × Nat)) (maxInstr : Int) :
    BFState → StepRes → Prop where
  | halt {s s' : BFState} (h : StepR code jl maxInstr s (.halt s')) :
      RunR code jl maxInstr s (.halt s')
  | fail {s s' : BFState} {e : BFErr} (h : StepR code jl maxInstr s (.err e s')) :
      RunR code jl maxInstr s (.err e s')
  | step {s s' : BFState} {r : StepRes} (h : StepR code jl maxInstr s (.next s'))
      (hrest : RunR code jl maxInstr s' r) : RunR code jl maxInstr s r

/-- C10.  The interpreter is deterministic: from the same operator
sequence, jump table, budget and state (which carries tape, input stream
and output buffer), any two finished runs of the step relation reach the
same outcome - the same error or the same final state with the same
output buffer.  No step depends on anything but these explicit inputs. -/
theorem c10_deterministic (code : List Char) (jl : List (Nat × Nat))
    (maxInstr : Int) (s : BFState) (r₁ r₂ : StepRes)
    (h₁ : RunR code jl maxInstr s r₁) (h₂ : RunR code jl maxInstr s r₂) :
    r₁ = r₂ := by
  induction h₁ generalizing r₂ with
  | halt h =>
    cases h₂ with
    | halt h' => exact (stepR_agree _ _ _ _ _ h).symm.trans (stepR_agree _ _ _ _ _ h')
    | fail h' =>
      have e := (stepR_agree _ _ _ _ _ h).symm.trans (stepR_agree _ _ _ _ _ h')
      exact absurd e (by simp)
    | step h' _ =>
      have e := (stepR_agree _ _ _ _ _ h).symm.trans (stepR_agree _ _ _ _ _ h')
      exact absurd e (by simp)
  | fail h =>
    cases h₂ with
    | halt h' =>
      have e := (stepR_agree _ _ _ _ _ h).symm.trans (stepR_agree _ _ _ _ _ h')
      exact absurd e (by simp)
    | fail h' => exact (stepR_agree _ _ _ _ _ h).symm.trans (stepR_agree _ _ _ _ _ h')
    | step h' _ =>
      have e := (stepR_agree _ _ _ _ _ h).symm.trans (stepR_agree _ _ _ _ _ h')
      exact absurd e (by simp)
  | step h hrest ih =>
    cases h₂ with
    | halt h' =>
      have e := (stepR_agree _ _ _ _ _ h).symm.trans (stepR_agree _ _ _ _ _ h')
      exact absurd e (by simp)
    | fail h' =>
      have e := (stepR_agree _ _ _ _ _ h).symm.trans (stepR_agree _ _ _ _ _ h')
      exact absurd e (by simp)
    | step h' hrest' =>
      have e := (stepR_agree _ _ _ _ _ h).symm.trans (stepR_agree _ _ _ _ _ h')
      injection e with e'
      subst e'
      exact ih _ hrest'

theorem c10_witness :
    (StepRes.halt ⟨1, 0, [1], 1, [], []⟩ : StepRes) = .halt ⟨1, 0, [1], 1, [], []⟩ :=
  c10_deterministic ['+'] [] (-1) (initState 1 []) _ _
    (RunR.step
      (StepR.inc (initState 1 []) 0 (by decide) (by decide) (by decide) (by decide))
      (RunR.halt (StepR.halt _ (by decide))))
    (RunR.step
      (StepR.inc (initState 1 []) 0 (by decide) (by decide) (by decide) (by decide))
      (RunR.halt (StepR.halt _ (by decide))))

/-! ## C5 and C7: the jump-table scans

The two scans of `Brainfuck.__init__` are characterized by bracket
counts: starting at nesting counter `h`, the forward scan finds the
first position where the count of `]` in the prefix exceeds the count of
`[` by exactly `h` (and that position holds a `]`).  From this the
symmetry of the two scans and the rejection of crossing brackets follow. -/

/-- Count of LoopOpen characters. -/
def opc : List Char → Nat
  | [] => 0
  | c :: l => (if c = '[' then 1 else 0) + opc l

/-- Count of LoopClose characters. -/
def clc : List Char → Nat
  | [] => 0
  | c :: l => (if c = ']' then 1 else 0) + clc l

theorem opc_append (l₁ l₂ : List Char) : opc (l₁ ++ l₂) = opc l₁ + opc l₂ := by
  induction l₁ with
  | nil => simp [opc]
  | cons c l ih => simp [opc, ih]; omega

theorem clc_append (l₁ l₂ : List Char) : clc (l₁ ++ l₂) = clc l₁ + clc l₂ := by
  induction l₁ with
  | nil => simp [clc]
  | cons c l ih => simp [clc, ih]; omega

theorem opc_reverse (l : List Char) : opc l.reverse = opc l := by
  induction l with
  | nil => rfl
  | cons c l ih => simp [List.reverse_cons, opc_append, opc, ih]; omega

theorem clc_reverse (l : List Char) : clc l.reverse = clc l := by
  induction l with
  | nil => rfl
  | cons c l ih => simp [List.reverse_cons, clc_append, clc, ih]; omega

theorem opc_map_swap (l : List Char) : opc (l.map swapBr) = clc l := by
  induction l with
  | nil => rfl
  | cons c l ih =>
    by_cases h1 : c = '['
    · subst h1; simp [swapBr, opc, clc, ih]
    · by_cases h2 : c = ']'
      · subst h2; simp [swapBr, opc, clc, ih]
      · simp [swapBr, h1, h2, opc, clc, ih]

theorem clc_map_swap (l : List Char) : clc (l.map swapBr) = opc l := by
  induction l with
  | nil => rfl
  | cons c l ih =>
    by_cases h1 : c = '['
    · subst h1; simp [swapBr, opc, clc, ih]
    · by_cases h2 : c = ']'
      · subst h2; simp [swapBr, opc, clc, ih]
      · simp [swapBr, h1, h2, opc, clc, ih]

theorem swapBr_eq_close {c : Char} (h : swapBr c = ']') : c = '[' := by
  by_cases h1 : c = '['
  · exact h1
  · by_cases h2 : c = ']'
    · rw [swapBr, if_neg (by simp [h2]), if_pos h2] at h
      exact absurd h (by decide)
    · rw [swapBr, if_neg h1, if_neg h2] at h
      exact absurd h h2

theorem forall_lt_succ_shift (P : Nat → Prop) (k : Nat) :
    (∀ j, j < k + 1 → ¬ P j) ↔ ¬ P 0 ∧ ∀ j, j < k → ¬ P (j + 1) := by
  constructor
  · intro h
    exact ⟨h 0 (by omega), fun j hj => h (j + 1) (by omega)⟩
  · rintro ⟨h0, h⟩ j hj
    cases j with
    | zero => exact h0
    | succ j' => exact h j' (by omega)

/-- Characterization of the forward scan: starting at nesting counter
`h`, it returns the first offset `k` that holds a `]` with the counts in
the strict prefix satisfying `clc = opc + h`, and `none` when no offset
does. -/
theorem fmatch_eq_some : ∀ (l : List Char) (h k : Nat),
    fmatch l h = some k ↔
      (l[k]? = some ']' ∧ clc (l.take k) = opc (l.take k) + h ∧
       ∀ j, j < k → ¬(l[j]? = some ']' ∧ clc (l.take j) = opc (l.take j) + h)) := by
  intro l
  induction l with
  | nil =>
    intro h k
    simp [fmatch]
  | cons c rest ih =>
    intro h k
    by_cases hc : c = ']'
    · subst hc
      cases h with
      | zero =>
        cases k with
        | zero => simp [fmatch, clc, opc]
        | succ k' =>
          have hstep : fmatch (']' :: rest) 0 = some 0 := by simp [fmatch]
          rw [hstep]
          constructor
          · intro he
            exact absurd he (by simp)
          · rintro ⟨-, -, hmin⟩
            exact absurd ⟨by simp, by simp [clc, opc]⟩ (hmin 0 (by omega))
      | succ h' =>
        have hstep : fmatch (']' :: rest) (h' + 1) = (fmatch rest h').map (· + 1) := by
          simp [fmatch]
        rw [hstep]
        cases k with
        | zero =>
          constructor
          · intro he
            obtain ⟨a, -, hak⟩ := Option.map_eq_some'.mp he
            omega
          · rintro ⟨-, h2, -⟩
            simp [clc, opc] at h2
        | succ k' =>
          constructor
          · intro he
            obtain ⟨a, ha, hak⟩ := Option.map_eq_some'.mp he
            have haa : a = k' := by omega
            rw [haa] at ha
            obtain ⟨h1, h2, h3⟩ := (ih h' k').mp ha
            refine ⟨by simpa using h1, ?_, ?_⟩
            · simp [clc, opc]
              omega
            · intro j hj
              cases j with
              | zero =>
                rintro ⟨-, habs⟩
                simp [clc, opc] at habs
              | succ j' =>
                rintro ⟨hj1, hj2⟩
                refine h3 j' (by omega) ⟨by simpa using hj1, ?_⟩
                simp [clc, opc] at hj2
                omega
          · rintro ⟨h1, h2, h3⟩
            have h1' : rest[k']? = some ']' := by simpa using h1
            have h2' : clc (rest.take k') = opc (rest.take k') + h' := by
              simp [clc, opc] at h2
              omega
            have h3' : ∀ j, j < k' →
                ¬(rest[j]? = some ']' ∧ clc (rest.take j) = opc (rest.take j) + h') := by
              rintro j hj ⟨hj1, hj2⟩
              refine h3 (j + 1) (by omega) ⟨by simpa using hj1, ?_⟩
              simp [clc, opc]
              omega
            rw [(ih h' k').mpr ⟨h1', h2', h3'⟩]
            rfl
    · -- c is not a LoopClose: the counter moves by d = 1 for a LoopOpen, 0 otherwise
      obtain ⟨d, hstep, hd⟩ :
          ∃ d, fmatch (c :: rest) h = (fmatch rest (h + d)).map (· + 1) ∧
            (if c = '[' then 1 else 0) = d := by
        by_cases hc2 : c = '['
        · subst hc2
          exact ⟨1, by simp [fmatch], by simp⟩
        · exact ⟨0, by simp [fmatch, hc, hc2], by simp [hc2]⟩
      rw [hstep]
      cases k with
      | zero =>
        constructor
        · intro he
          obtain ⟨a, -, hak⟩ := Option.map_eq_some'.mp he
          omega
        · rintro ⟨h1, -, -⟩
          simp at h1
          exact absurd h1 hc
      | succ k' =>
        constructor
        · intro he
          obtain ⟨a, ha, hak⟩ := Option.map_eq_some'.mp he
          have haa : a = k' := by omega
          rw [haa] at ha
          obtain ⟨h1, h2, h3⟩ := (ih (h + d) k').mp ha
          refine ⟨by simpa using h1, ?_, ?_⟩
          · simp only [List.take_succ_cons, clc, opc, if_neg hc, hd]
            omega
          · intro j hj
            cases j with
            | zero =>
              rintro ⟨hj1, -⟩
              simp at hj1
              exact hc hj1
            | succ j' =>
              rintro ⟨hj1, hj2⟩
              refine h3 j' (by omega) ⟨by simpa using hj1, ?_⟩
              simp only [List.take_succ_cons, clc, opc, if_neg hc, hd] at hj2
              omega
        · rintro ⟨h1, h2, h3⟩
          have h1' : rest[k']? = some ']' := by simpa using h1
          have h2' : clc (rest.take k') = opc (rest.take k') + (h + d) := by
            simp only [List.take_succ_cons, clc, opc, if_neg hc, hd] at h2
            omega
          have h3' : ∀ j, j < k' →
              ¬(rest[j]? = some ']' ∧ clc (rest.take j) = opc (rest.take j) + (h + d)) := by
            rintro j hj ⟨hj1, hj2⟩
            refine h3 (j + 1) (by omega) ⟨by simpa using hj1, ?_⟩
            simp only [List.take_succ_cons, clc, opc, if_neg hc, hd]
            omega
          rw [(ih (h + d) k').mpr ⟨h1', h2', h3'⟩]
          rfl

/-- Until the first match offset, the close count never exceeds the open
count plus the starting nesting counter. -/
theorem no_early_close (l : List Char) (h k : Nat)
    (hmin : ∀ j, j < k → ¬(l[j]? = some ']' ∧ clc (l.take j) = opc (l.take j) + h)) :
    ∀ i, i ≤ k → clc (l.take i) ≤ opc (l.take i) + h := by
  intro i
  induction i with
  | zero => intro _; simp [clc, opc]
  | succ i' ih2 =>
    intro hik
    have hprev := ih2 (by omega)
    rw [List.take_succ]
    cases hgi : l[i']? with
    | none => simpa [clc_append, opc_append, clc, opc] using hprev
    | some ch =>
      by_cases hch : ch = ']'
      · subst hch
        have hne : clc (l.take i') ≠ opc (l.take i') + h :=
          fun heq => hmin i' (by omega) ⟨hgi, heq⟩
        simp [clc_append, opc_append, clc, opc]
        omega
      · by_cases hch2 : ch = '['
        · subst hch2
          simp [clc_append, opc_append, clc, opc]
          omega
        · simp [clc_append, opc_append, clc, opc, hch, hch2]
          omega

theorem fmatch_lt (l : List Char) (h k : Nat) (hm : fmatch l h = some k) :
    k < l.length := by
  obtain ⟨h1, -, -⟩ := (fmatch_eq_some l h k).mp hm
  exact (List.getElem?_eq_some_iff.mp h1).1

/-- One direction of the jump-table symmetry: when the forward scan of a
LoopOpen at `p` finds the partner `q`, position `q` holds a LoopClose
and the backward scan from `q` finds `p` back. -/
theorem jumpAt_open (code : List Char) (p q : Nat)
    (hp : code[p]? = some '[') (hj : jumpAt code p = some q) :
    code[q]? = some ']' ∧ jumpAt code q = some p := by
  rw [jumpAt, if_pos hp] at hj
  obtain ⟨r, hr, hq⟩ := Option.map_eq_some'.mp hj
  obtain ⟨h1, h2, h3⟩ := (fmatch_eq_some _ 0 r).mp hr
  have hql : code[q]? = some ']' := by
    rw [← hq, ← List.getElem?_drop]
    exact h1
  refine ⟨hql, ?_⟩
  have hpl : p < code.length := (List.getElem?_eq_some_iff.mp hp).1
  have hqlen : q < code.length := (List.getElem?_eq_some_iff.mp hql).1
  have hqpr : q = p + 1 + r := hq.symm
  rw [jumpAt, if_neg (by simp [hql]), if_pos hql]
  -- the strict interior of the bracket pair
  have e1 : ((code.take q).reverse).take r = ((code.drop (p + 1)).take r).reverse := by
    rw [List.take_reverse, List.length_take_of_le (le_of_lt hqlen),
        show q - r = p + 1 by omega, List.drop_take,
        show q - (p + 1) = r by omega]
  have hLr : (((code.take q).reverse).map swapBr)[r]? = some ']' := by
    rw [List.getElem?_map,
        List.getElem?_reverse (by rw [List.length_take_of_le (le_of_lt hqlen)]; omega),
        List.length_take_of_le (le_of_lt hqlen),
        show q - 1 - r = p by omega,
        List.getElem?_take_of_lt (by omega), hp]
    rfl
  have hcnt : clc ((((code.take q).reverse).map swapBr).take r) =
      opc ((((code.take q).reverse).map swapBr).take r) + 0 := by
    rw [← List.map_take, e1, clc_map_swap, opc_map_swap, opc_reverse, clc_reverse]
    omega
  have hmin : ∀ j, j < r →
      ¬((((code.take q).reverse).map swapBr)[j]? = some ']' ∧
        clc ((((code.take q).reverse).map swapBr).take j) =
          opc ((((code.take q).reverse).map swapBr).take j) + 0) := by
    rintro j hjr ⟨hj1, hj2⟩
    rw [List.getElem?_map,
        List.getElem?_reverse (by rw [List.length_take_of_le (le_of_lt hqlen)]; omega),
        List.length_take_of_le (le_of_lt hqlen)] at hj1
    obtain ⟨ch, hch, hchs⟩ := Option.map_eq_some'.mp hj1
    have hcho : ch = '[' := swapBr_eq_close hchs
    subst hcho
    rw [List.getElem?_take_of_lt (by omega)] at hch
    -- hch : code[q - 1 - j]? = some '['; its index inside the interior
    have hseg : ((code.drop (p + 1)).take r)[r - 1 - j]? = some '[' := by
      rw [List.getElem?_take_of_lt (by omega), List.getElem?_drop,
          show p + 1 + (r - 1 - j) = q - 1 - j by omega]
      exact hch
    -- counts of the suffix of the interior
    have e2 : ((code.take q).reverse).take j = ((code.drop (q - j)).take j).reverse := by
      rw [List.take_reverse, List.length_take_of_le (le_of_lt hqlen), List.drop_take,
          show q - (q - j) = j by omega]
    rw [← List.map_take, e2, clc_map_swap, opc_map_swap, opc_reverse, clc_reverse] at hj2
    have e3 : ((code.drop (p + 1)).take r).drop (r - 1 - j + 1) =
        (code.drop (q - j)).take j := by
      rw [List.drop_take, List.drop_drop,
          show p + 1 + (r - 1 - j + 1) = q - j by omega,
          show r - (r - 1 - j + 1) = j by omega]
    -- the prefix of the interior up to the inner LoopOpen is balanced
    have hsplit := List.take_append_drop (r - 1 - j + 1) ((code.drop (p + 1)).take r)
    have hbal : clc (((code.drop (p + 1)).take r).take (r - 1 - j + 1)) =
        opc (((code.drop (p + 1)).take r).take (r - 1 - j + 1)) := by
      have hc2 := h2
      rw [← hsplit, clc_append, opc_append, e3] at hc2
      omega
    have htsucc : (((code.drop (p + 1)).take r).take (r - 1 - j + 1)) =
        (((code.drop (p + 1)).take r).take (r - 1 - j)) ++ ['['] := by
      rw [List.take_succ, hseg]
      rfl
    rw [htsucc, clc_append, opc_append, List.take_take,
        Nat.min_eq_left (by omega)] at hbal
    have hnn := no_early_close (code.drop (p + 1)) 0 r h3 (r - 1 - j) (by omega)
    simp [clc, opc] at hbal
    omega
  have hb := (fmatch_eq_some (((code.take q).reverse).map swapBr) 0 r).mpr
    ⟨hLr, hcnt, hmin⟩
  rw [hb]
  simp only [Option.map_some']
  congr 1
  omega

theorem swapBr_swapBr (c : Char) : swapBr (swapBr c) = c := by
  by_cases h1 : c = '['
  · subst h1; rfl
  · by_cases h2 : c = ']'
    · subst h2; rfl
    · have h : swapBr c = c := by rw [swapBr, if_neg h1, if_neg h2]
      rw [h, h]

theorem map_swapBr_swapBr (l : List Char) : (l.map swapBr).map swapBr = l := by
  induction l with
  | nil => rfl
  | cons c l ih => simp only [List.map_cons, ih, swapBr_swapBr]

theorem mirror_getElem (code : List Char) (i : Nat) (hi : i < code.length) :
    ((code.map swapBr).reverse)[i]? = (code[code.length - 1 - i]?).map swapBr := by
  rw [List.getElem?_reverse (by simpa using hi), List.length_map, List.getElem?_map]

/-- Scanning backwards in the source is scanning forwards in the mirror:
the jump scan commutes with reversing the code and exchanging the
bracket roles. -/
theorem jumpAt_mirror (code : List Char) (p : Nat) (hpl : p < code.length) :
    jumpAt ((code.map swapBr).reverse) (code.length - 1 - p) =
      (jumpAt code p).map (fun q => code.length - 1 - q) := by
  have hidx : ((code.map swapBr).reverse)[code.length - 1 - p]? =
      (code[p]?).map swapBr := by
    rw [mirror_getElem code _ (by omega),
        show code.length - 1 - (code.length - 1 - p) = p by omega]
  have hcp : code[p]? = some code[p] := List.getElem?_eq_getElem hpl
  by_cases h1 : code[p] = '['
  · have hcp' : code[p]? = some '[' := by rw [hcp, h1]
    have hmir : ((code.map swapBr).reverse)[code.length - 1 - p]? = some ']' := by
      rw [hidx, hcp']; rfl
    rw [jumpAt, if_neg (by simp [hmir]), if_pos hmir, jumpAt, if_pos hcp']
    have hlist :
        (((((code.map swapBr).reverse).take (code.length - 1 - p)).reverse).map swapBr)
          = code.drop (p + 1) := by
      rw [List.take_reverse, List.length_map,
          show code.length - (code.length - 1 - p) = p + 1 by omega,
          List.reverse_reverse, List.map_drop, map_swapBr_swapBr]
    rw [hlist]
    cases hf : fmatch (code.drop (p + 1)) 0 with
    | none => rfl
    | some r =>
      simp only [Option.map_some']
      congr 1
      omega
  · by_cases h2 : code[p] = ']'
    · have hcp' : code[p]? = some ']' := by rw [hcp, h2]
      have hmir : ((code.map swapBr).reverse)[code.length - 1 - p]? = some '[' := by
        rw [hidx, hcp']; rfl
      rw [jumpAt, if_pos hmir, jumpAt, if_neg (by simp [hcp']), if_pos hcp']
      have hlist : ((code.map swapBr).reverse).drop (code.length - 1 - p + 1) =
          ((code.take p).reverse).map swapBr := by
        rw [List.drop_reverse, List.length_map,
            show code.length - (code.length - 1 - p + 1) = p by omega,
            ← List.map_take, ← List.map_reverse]
      rw [hlist]
      cases hf : fmatch (((code.take p).reverse).map swapBr) 0 with
      | none => rfl
      | some r =>
        have hflt := fmatch_lt _ _ _ hf
        rw [List.length_map, List.length_reverse,
            List.length_take_of_le (le_of_lt hpl)] at hflt
        simp only [Option.map_some']
        congr 1
        omega
    · have hc1 : ¬ code[p]? = some '[' := by
        rw [hcp]; intro he; exact h1 (Option.some.inj he)
      have hc2 : ¬ code[p]? = some ']' := by
        rw [hcp]; intro he; exact h2 (Option.some.inj he)
      have hswap : swapBr code[p] = code[p] := by
        rw [swapBr, if_neg h1, if_neg h2]
      have hm1 : ¬ ((code.map swapBr).reverse)[code.length - 1 - p]? = some '[' := by
        rw [hidx, hcp]
        simp only [Option.map_some', hswap]
        intro he; exact h1 (Option.some.inj he)
      have hm2 : ¬ ((code.map swapBr).reverse)[code.length - 1 - p]? = some ']' := by
        rw [hidx, hcp]
        simp only [Option.map_some', hswap]
        intro he; exact h2 (Option.some.inj he)
      rw [jumpAt, if_neg hm1, if_neg hm2, jumpAt, if_neg hc1, if_neg hc2]
      rfl

/-- The other direction of the jump-table symmetry: when the backward
scan of a LoopClose at `q` finds the partner `p`, position `p` holds a
LoopOpen and the forward scan from `p` finds `q` back.  Proved by
mirroring the code and applying the forward direction. -/
theorem jumpAt_close (code : List Char) (p q : Nat)
    (hq : code[q]? = some ']') (hj : jumpAt code q = some p) :
    code[p]? = some '[' ∧ jumpAt code p = some q := by
  have hql : q < code.length := (List.getElem?_eq_some_iff.mp hq).1
  -- bound p using the scan offset
  have hj' := hj
  rw [jumpAt, if_neg (by simp [hq]), if_pos hq] at hj'
  obtain ⟨r, hr, hpr⟩ := Option.map_eq_some'.mp hj'
  have hrlt : r < q := by
    have h := fmatch_lt _ _ _ hr
    rw [List.length_map, List.length_reverse,
        List.length_take_of_le (le_of_lt hql)] at h
    exact h
  have hpl : p < code.length := by omega
  -- mirror the backward match to a forward match
  have hmq := jumpAt_mirror code q hql
  rw [hj] at hmq
  have hq' : ((code.map swapBr).reverse)[code.length - 1 - q]? = some '[' := by
    rw [mirror_getElem code _ (by omega),
        show code.length - 1 - (code.length - 1 - q) = q by omega, hq]
    rfl
  obtain ⟨hc1, hc2⟩ := jumpAt_open ((code.map swapBr).reverse)
    (code.length - 1 - q) (code.length - 1 - p) hq' (by simpa using hmq)
  -- translate the LoopOpen fact back to the source
  have hpo : code[p]? = some '[' := by
    rw [mirror_getElem code _ (by omega),
        show code.length - 1 - (code.length - 1 - p) = p by omega] at hc1
    obtain ⟨ch, hch, hchs⟩ := Option.map_eq_some'.mp hc1
    rw [hch, swapBr_eq_close hchs]
  refine ⟨hpo, ?_⟩
  -- mirror back at p
  have hmp := jumpAt_mirror code p hpl
  rw [hc2] at hmp
  obtain ⟨x, hx, hxq⟩ := Option.map_eq_some'.mp hmp.symm
  obtain ⟨hxc, -⟩ := jumpAt_open code p x hpo hx
  have hxl : x < code.length := (List.getElem?_eq_some_iff.mp hxc).1
  have hxe : x = q := by omega
  rw [← hxe]
  exact hx

/-! ## The jump dict produced by the discovery loop -/

theorem jumpAt_isSome_bracket (code : List Char) (p q : Nat)
    (h : jumpAt code p = some q) : isBracketAt code p := by
  by_cases h1 : code[p]? = some '['
  · exact Or.inl h1
  · by_cases h2 : code[p]? = some ']'
    · exact Or.inr h2
    · rw [jumpAt, if_neg h1, if_neg h2] at h
      exact absurd h (by simp)

theorem buildAux_keys (code : List Char) : ∀ (fuel p : Nat) (l : List (Nat × Nat)),
    buildAux code p fuel = .ok l →
    l.map Prod.fst = (List.range' p fuel).filter (fun a => decide (isBracketAt code a)) := by
  intro fuel
  induction fuel with
  | zero =>
    intro p l h
    have hl : l = [] := by
      have : (.ok [] : Except BFErr (List (Nat × Nat))) = .ok l := h
      simpa using this.symm
    subst hl
    rfl
  | succ f ih =>
    intro p l h
    rw [List.range'_succ]
    simp only [buildAux] at h
    cases hc : code[p]? with
    | none =>
      rw [hc] at h
      simp only [] at h
      have hl : l = [] := by simpa using (Except.ok.inj h).symm
      subst hl
      have hlen : code.length ≤ p := List.getElem?_eq_none_iff.mp hc
      have hfil : ∀ a ∈ p :: List.range' (p + 1) f 1, ¬ (decide (isBracketAt code a) = true) := by
        intro a ha
        have hap : p ≤ a := by
          rcases List.mem_cons.mp ha with rfl | ha'
          · omega
          · have := (List.mem_range'_1.mp ha').1
            omega
        have : code[a]? = none := List.getElem?_eq_none_iff.mpr (by omega)
        simp [isBracketAt, this]
      rw [List.filter_eq_nil_iff.mpr hfil]
      rfl
    | some c =>
      rw [hc] at h
      simp only [] at h
      by_cases hbr : c = '[' ∨ c = ']'
      · rw [if_pos hbr] at h
        have hbra : isBracketAt code p := by
          rcases hbr with rfl | rfl
          · exact Or.inl hc
          · exact Or.inr hc
        cases hja : jumpAt code p with
        | none => rw [hja] at h; exact absurd h (by simp)
        | some q =>
          rw [hja] at h
          cases hrec : buildAux code (p + 1) f with
          | error e => rw [hrec] at h; exact absurd h (by simp [Except.map])
          | ok l' =>
            rw [hrec] at h
            have hl : l = (p, q) :: l' := by
              simpa [Except.map] using (Except.ok.inj h).symm
            subst hl
            rw [List.filter_cons_of_pos (by simpa using hbra)]
            simp only [List.map_cons]
            rw [ih (p + 1) l' hrec]
      · rw [if_neg hbr] at h
        have hnbra : ¬ isBracketAt code p := by
          rintro (hx | hx) <;>
            (rw [hc] at hx; exact hbr (by cases Option.some.inj hx; simp_all))
        rw [List.filter_cons_of_neg (by simpa using hnbra)]
        exact ih (p + 1) l h

theorem buildAux_mem (code : List Char) : ∀ (fuel p : Nat) (l : List (Nat × Nat)),
    buildAux code p fuel = .ok l →
    ∀ a b, (a, b) ∈ l → jumpAt code a = some b := by
  intro fuel
  induction fuel with
  | zero =>
    intro p l h a b hab
    have hl : l = [] := by
      have : (.ok [] : Except BFErr (List (Nat × Nat))) = .ok l := h
      simpa using this.symm
    subst hl
    exact absurd hab (List.not_mem_nil _)
  | succ f ih =>
    intro p l h a b hab
    simp only [buildAux] at h
    cases hc : code[p]? with
    | none =>
      rw [hc] at h
      simp only [] at h
      have hl : l = [] := by simpa using (Except.ok.inj h).symm
      subst hl
      exact absurd hab (List.not_mem_nil _)
    | some c =>
      rw [hc] at h
      simp only [] at h
      by_cases hbr : c = '[' ∨ c = ']'
      · rw [if_pos hbr] at h
        cases hja : jumpAt code p with
        | none => rw [hja] at h; exact absurd h (by simp)
        | some q =>
          rw [hja] at h
          cases hrec : buildAux code (p + 1) f with
          | error e => rw [hrec] at h; exact absurd h (by simp [Except.map])
          | ok l' =>
            rw [hrec] at h
            have hl : l = (p, q) :: l' := by
              simpa [Except.map] using (Except.ok.inj h).symm
            subst hl
            rcases List.mem_cons.mp hab with he | ht
            · obtain ⟨rfl, rfl⟩ := Prod.mk.injEq .. ▸ he
              exact hja
            · exact ih (p + 1) l' hrec a b ht
      · rw [if_neg hbr] at h
        exact ih (p + 1) l h a b hab

theorem alookup_mem : ∀ (l : List (Nat × Nat)) (a b : Nat),
    alookup l a = some b → (a, b) ∈ l := by
  intro l
  induction l with
  | nil => intro a b h; exact absurd h (by simp [alookup])
  | cons x rest ih =>
    intro a b h
    rw [alookup] at h
    by_cases hax : a = x.1
    · rw [if_pos hax] at h
      have hb : x.2 = b := Option.some.inj h
      have hx : (a, b) = x := Prod.ext hax hb.symm
      rw [hx]
      exact List.mem_cons_self x rest
    · rw [if_neg hax] at h
      exact List.mem_cons_of_mem _ (ih a b h)

theorem alookup_of_mem_keys : ∀ (l : List (Nat × Nat)) (a : Nat),
    a ∈ l.map Prod.fst → ∃ b, alookup l a = some b := by
  intro l
  induction l with
  | nil => intro a h; exact absurd h (by simp)
  | cons x rest ih =>
    intro a h
    by_cases hax : a = x.1
    · exact ⟨x.2, by rw [alookup, if_pos hax]⟩
    · have h' : a ∈ x.1 :: rest.map Prod.fst := by simpa using h
      rcases List.mem_cons.mp h' with he | ht
      · exact absurd he hax
      · obtain ⟨b, hb⟩ := ih a ht
        exact ⟨b, by rw [alookup, if_neg hax]; exact hb⟩

/-- C5.  On successful construction every LoopOpen/LoopClose position of
the operator sequence has exactly one entry in the jump dict (count 1
among the keys, count 0 for every non-bracket position), and the dict is
symmetric: `jump[jump[p]] = p` for every key `p`. -/
theorem c5_jump_table (raw code : List Char) (jl : List (Nat × Nat))
    (h : bfInit raw = .ok (code, jl)) :
    (∀ p, isBracketAt code p → ∃ q, alookup jl p = some q) ∧
    (∀ p, (jl.map Prod.fst).count p = if isBracketAt code p then 1 else 0) ∧
    (∀ p q, alookup jl p = some q → alookup jl q = some p) := by
  rw [bfInit] at h
  by_cases hcnt : raw.count '[' ≠ raw.count ']'
  · rw [if_pos hcnt] at h
    exact absurd h (by simp)
  · rw [if_neg hcnt] at h
    cases hb : buildJumps (stripOps raw) with
    | error e => rw [hb] at h; exact absurd h (by simp [Except.map])
    | ok jl' =>
      rw [hb] at h
      have hpair : (stripOps raw, jl') = (code, jl) := by
        simpa [Except.map] using Except.ok.inj h
      have hcode : stripOps raw = code := (Prod.mk.injEq .. ▸ hpair).1
      have hjl : jl' = jl := (Prod.mk.injEq .. ▸ hpair).2
      rw [hcode, hjl] at hb
      have hkeys := buildAux_keys code code.length 0 jl hb
      have hnodup : (jl.map Prod.fst).Nodup := by
        rw [hkeys]
        exact (List.nodup_range' 0 code.length).filter _
      have hmemkeys : ∀ p, isBracketAt code p → p ∈ jl.map Prod.fst := by
        intro p hp
        rw [hkeys]
        refine List.mem_filter.mpr ⟨?_, by simpa using hp⟩
        have hlt : p < code.length := by
          rcases hp with hx | hx <;> exact (List.getElem?_eq_some_iff.mp hx).1
        exact List.mem_range'_1.mpr ⟨by omega, by omega⟩
      have hkeysmem : ∀ p, p ∈ jl.map Prod.fst → isBracketAt code p := by
        intro p hp
        rw [hkeys] at hp
        have := (List.mem_filter.mp hp).2
        simpa using this
      refine ⟨?_, ?_, ?_⟩
      · intro p hp
        exact alookup_of_mem_keys jl p (hmemkeys p hp)
      · intro p
        by_cases hp : isBracketAt code p
        · rw [if_pos hp]
          exact List.count_eq_one_of_mem hnodup (hmemkeys p hp)
        · rw [if_neg hp]
          exact List.count_eq_zero_of_not_mem (fun hin => hp (hkeysmem p hin))
      · intro p q hpq
        have hmem := alookup_mem jl p q hpq
        have hjpq : jumpAt code p = some q := buildAux_mem code code.length 0 jl hb p q hmem
        have hqp : jumpAt code q = some p := by
          rcases jumpAt_isSome_bracket code p q hjpq with hx | hx
          · exact (jumpAt_open code p q hx hjpq).2
          · exact (jumpAt_close code q p hx hjpq).2
        have hqbra : isBracketAt code q := jumpAt_isSome_bracket code q p hqp
        obtain ⟨b, hbq⟩ := alookup_of_mem_keys jl q (hmemkeys q hqbra)
        have hjb : jumpAt code q = some b :=
          buildAux_mem code code.length 0 jl hb q b (alookup_mem jl q b hbq)
        have : b = p := by
          have := hjb.symm.trans hqp
          exact Option.some.inj this
        rw [← this]
        exact hbq

theorem c5_witness :
    alookup [(0, 1), (1, 0)] 1 = some 0 ∧
    (([(0, 1), (1, 0)] : List (Nat × Nat)).map Prod.fst).count 0 = 1 := by
  refine ⟨(c5_jump_table ['[', ']'] ['[', ']'] [(0, 1), (1, 0)] (by decide)).2.2 0 1
    (by decide), ?_⟩
  have h := (c5_jump_table ['[', ']'] ['[', ']'] [(0, 1), (1, 0)] (by decide)).2.1 0
  rw [if_pos (by decide)] at h
  exact h

/-! ## C7: balanced-but-crossing texts are rejected -/

/-- If some bracket position in range has no partner, the discovery loop
raises an unmatched-bracket error (at the first such bracket it meets). -/
theorem buildAux_fails (code : List Char) : ∀ (fuel p : Nat),
    (∃ a, p ≤ a ∧ a < p + fuel ∧ isBracketAt code a ∧ jumpAt code a = none) →
    ∃ p', buildAux code p fuel = .error (.unmatchedBracket p') := by
  intro fuel
  induction fuel with
  | zero =>
    rintro p ⟨a, h1, h2, -, -⟩
    omega
  | succ f ih =>
    rintro p ⟨a, h1, h2, h3, h4⟩
    cases hc : code[p]? with
    | none =>
      have hlen : code.length ≤ p := List.getElem?_eq_none_iff.mp hc
      have : code[a]? = none := List.getElem?_eq_none_iff.mpr (by omega)
      rcases h3 with hx | hx <;> rw [this] at hx <;> exact absurd hx (by simp)
    | some c =>
      by_cases hbr : c = '[' ∨ c = ']'
      · cases hja : jumpAt code p with
        | none =>
          refine ⟨p, ?_⟩
          simp only [buildAux, hc, if_pos hbr, hja]
        | some q =>
          have hap : a ≠ p := fun he => by rw [he, hja] at h4; exact absurd h4 (by simp)
          obtain ⟨p', hp'⟩ := ih (p + 1) ⟨a, by omega, by omega, h3, h4⟩
          refine ⟨p', ?_⟩
          simp only [buildAux, hc, if_pos hbr, hja, hp']
          rfl
      · have hap : a ≠ p := by
          rintro rfl
          rcases h3 with hx | hx <;>
            (rw [hc] at hx; exact hbr (by cases Option.some.inj hx; simp_all))
        obtain ⟨p', hp'⟩ := ih (p + 1) ⟨a, by omega, by omega, h3, h4⟩
        refine ⟨p', ?_⟩
        simp only [buildAux, hc, if_neg hbr, hp']

/-- C7.  A text whose LoopOpen and LoopClose counts agree but whose
brackets cross - some prefix of the stripped operator sequence holds
more LoopClose than LoopOpen characters - is rejected at construction
with an unmatched-bracket Syntax error (error number 4 in the source),
not silently accepted: the backward scan of the first prefix-violating
LoopClose finds no partner. -/
theorem c7_crossing (raw : List Char)
    (hcnt : raw.count '[' = raw.count ']')
    (hcross : ∃ i, opc ((stripOps raw).take i) < clc ((stripOps raw).take i)) :
    ∃ p, bfInit raw = .error (.unmatchedBracket p) := by
  rw [bfInit, if_neg (by omega)]
  -- find the first prefix violation
  obtain ⟨i₀, hPi, hmin⟩ : ∃ i₀, (opc ((stripOps raw).take i₀) < clc ((stripOps raw).take i₀)) ∧
      ∀ m, m < i₀ → ¬(opc ((stripOps raw).take m) < clc ((stripOps raw).take m)) :=
    ⟨Nat.find hcross, Nat.find_spec hcross, fun m hm => Nat.find_min hcross hm⟩
  obtain ⟨j, rfl⟩ : ∃ j, i₀ = j + 1 := by
    cases i₀ with
    | zero => simp [clc, opc] at hPi
    | succ j => exact ⟨j, rfl⟩
  have hPj := hmin j (by omega)
  rw [List.take_succ] at hPi
  -- position j holds the violating LoopClose and its strict prefix is balanced
  obtain ⟨hgj, hbal⟩ : (stripOps raw)[j]? = some ']' ∧
      clc ((stripOps raw).take j) = opc ((stripOps raw).take j) := by
    cases hgj : (stripOps raw)[j]? with
    | none =>
      rw [hgj] at hPi
      rw [clc_append, opc_append] at hPi
      simp [clc, opc] at hPi
      exact absurd hPi hPj
    | some ch =>
      rw [hgj] at hPi
      rw [clc_append, opc_append] at hPi
      by_cases hch : ch = ']'
      · subst hch
        refine ⟨rfl, ?_⟩
        simp [clc, opc] at hPi
        omega
      · exfalso
        simp [clc, opc, hch] at hPi
        apply hPj
        omega
  have hjl : j < (stripOps raw).length := (List.getElem?_eq_some_iff.mp hgj).1
  -- the backward scan from j finds nothing
  have hnone : jumpAt (stripOps raw) j = none := by
    rw [jumpAt, if_neg (by simp [hgj]), if_pos hgj]
    cases hf : fmatch ((((stripOps raw).take j).reverse).map swapBr) 0 with
    | none => rfl
    | some r =>
      exfalso
      have hrlt : r < j := by
        have h := fmatch_lt _ _ _ hf
        rw [List.length_map, List.length_reverse,
            List.length_take_of_le (le_of_lt hjl)] at h
        exact h
      obtain ⟨hr1, hr2, -⟩ := (fmatch_eq_some _ 0 r).mp hf
      -- the matched element is a LoopOpen at position m = j - 1 - r
      rw [List.getElem?_map,
          List.getElem?_reverse (by rw [List.length_take_of_le (le_of_lt hjl)]; omega),
          List.length_take_of_le (le_of_lt hjl)] at hr1
      obtain ⟨ch, hch, hchs⟩ := Option.map_eq_some'.mp hr1
      have hcho : ch = '[' := swapBr_eq_close hchs
      subst hcho
      rw [List.getElem?_take_of_lt (by omega)] at hch
      -- the suffix between the LoopOpen and j is balanced
      have e2 : (((stripOps raw).take j).reverse).take r =
          (((stripOps raw).drop (j - r)).take r).reverse := by
        rw [List.take_reverse, List.length_take_of_le (le_of_lt hjl), List.drop_take,
            show j - (j - r) = r by omega]
      rw [← List.map_take, e2, clc_map_swap, opc_map_swap, opc_reverse, clc_reverse] at hr2
      -- split the prefix at the LoopOpen
      have hsplit : (stripOps raw).take j =
          (stripOps raw).take (j - r) ++ ((stripOps raw).drop (j - r)).take r := by
        rw [← List.take_add, show j - r + r = j by omega]
      have htsucc : (stripOps raw).take (j - r) =
          (stripOps raw).take (j - 1 - r) ++ ['['] := by
        rw [show j - r = j - 1 - r + 1 by omega, List.take_succ, hch]
        rfl
      have hc2 := hbal
      rw [hsplit, clc_append, opc_append, htsucc, clc_append, opc_append] at hc2
      simp [clc, opc] at hc2
      exact hmin (j - 1 - r) (by omega) (by omega)
  obtain ⟨p', hp'⟩ := buildAux_fails (stripOps raw) (stripOps raw).length 0
    ⟨j, by omega, by omega, Or.inr hgj, hnone⟩
  refine ⟨p', ?_⟩
  rw [show buildJumps (stripOps raw) =
        buildAux (stripOps raw) 0 (stripOps raw).length from rfl, hp']
  rfl

theorem c7_witness : ∃ p, bfInit [']', '['] = .error (.unmatchedBracket p) :=
  c7_crossing [']', '['] (by decide) ⟨1, by decide⟩

end THD
